import Mathlib

/-!
Shallow embedding of `src/library/neh/http_common.h` (namespace `NNeh::NHttp`):
the connection-limit policy value `TFdLimits`, the lock-free growable container
`TLockFreeSequence`, the request buffer `TRequestData` and the three request
builders `TRequestGet` / `TRequestPost` / `TRequestFull`, plus the request-type
resolution of `MakeFullRequest`.

Byte sequences are modelled as `List Char`; `size_t` values are `Nat` (the few
places where the 64-bit width matters carry an explicit `< 2 ^ 64` bound).
-/

namespace NNeh

/-! ### TFdLimits (http_common.h lines 25-43) -/

/-- `TFdLimits::ExceedLimit(val, limit)`: `val > limit ? val - limit : 0`. -/
def TFdLimits.ExceedLimit (val limit : Nat) : Nat :=
  if val > limit then val - limit else 0

/-- The `Soft` / `Hard` fields of `TFdLimits` (both `size_t`). -/
structure TFdLimits where
  Soft : Nat
  Hard : Nat

/-- The default constructor `TFdLimits()`: `Soft(10000), Hard(15000)`. -/
def TFdLimits.mkDefault : TFdLimits := ⟨10000, 15000⟩

/-- `TFdLimits::Delta()`: `ExceedLimit(Hard, Soft)`. -/
def TFdLimits.Delta (l : TFdLimits) : Nat :=
  TFdLimits.ExceedLimit l.Hard l.Soft

/-! ### TLockFreeSequence: index arithmetic (http_common.h lines 58-61) -/

/-- Binary bit length, fuel-based so that it reduces structurally (the fuel
is always sufficient because the bit length of `v` is at most `v`). -/
def bitCountAux : Nat → Nat → Nat
  | 0, _ => 0
  | fuel + 1, v => if v = 0 then 0 else bitCountAux fuel (v / 2) + 1

/-- Modelled from the spec: `GetValueBitCount` comes from `util/generic/bitops.h`,
which is not under `src/`; the spec states the element at logical index `n`
lives in segment `bit-length(n+1) - 1`, so `GetValueBitCount v` is the binary
bit length of `v` (number of significant bits, `0` for `0`). -/
def GetValueBitCount (v : Nat) : Nat := bitCountAux v v

/-- The segment index computed by `TLockFreeSequence::Get(n)`:
`const size_t i = GetValueBitCount(n + 1) - 1`. -/
def segIdx (n : Nat) : Nat := GetValueBitCount (n + 1) - 1

/-- The offset into segment `segIdx n` used by `Get(n)`:
`n + 1 - (((size_t)1) << i)`. -/
def segOff (n : Nat) : Nat := n + 1 - 2 ^ segIdx n

/-! ### TLockFreeSequence: sequential state-passing model (lines 46-81)

For the single-threaded claims we model the container state as the table
`T_` of segment pointers.  Array identities are abstracted as allocation
ids handed out by a counter: `GetList` on an empty slot allocates a fresh
id and publishes it (the uncontended `AtomicCas` always succeeds), and on
a published slot returns it unchanged.  `Get n` returns the "address" of
the slot for logical index `n`: the pair (segment array id, offset). -/

structure TLockFreeSequence where
  tbl : Nat → Option Nat
  nextAlloc : Nat

/-- The constructor `TLockFreeSequence()`: `memset(T_, 0, ...)` — every
segment slot starts out null. -/
def TLockFreeSequence.mkEmpty : TLockFreeSequence := ⟨fun _ => none, 0⟩

/-- `TLockFreeSequence::GetList(i)` in the sequential model: return the
published segment array for index `i`, allocating and publishing a fresh
one when the slot is still null. -/
def TLockFreeSequence.GetList (s : TLockFreeSequence) (i : Nat) :
    Nat × TLockFreeSequence :=
  match s.tbl i with
  | some a => (a, s)
  | none =>
      (s.nextAlloc,
       ⟨fun j => if j = i then some s.nextAlloc else s.tbl j, s.nextAlloc + 1⟩)

/-- `TLockFreeSequence::Get(n)`: `GetList(i)[n + 1 - (1 << i)]` with
`i = GetValueBitCount(n + 1) - 1`.  Returns the slot address as
(segment array id, offset within the segment), plus the updated state. -/
def TLockFreeSequence.Get (s : TLockFreeSequence) (n : Nat) :
    (Nat × Nat) × TLockFreeSequence :=
  let r := s.GetList (segIdx n)
  ((r.1, segOff n), r.2)

/-- Run a sequence of `Get` calls (arbitrary indices) for their state effect. -/
def TLockFreeSequence.runGets (s : TLockFreeSequence) : List Nat → TLockFreeSequence
  | [] => s
  | n :: rest => (s.Get n).2.runGets rest

/-! ### Messages, locations and the request buffer (lines 84-108)

`TMessage` carries the payload `Data`; `TParsedLocation` (from location.h,
consumed here) carries the `Host`, `Service` and `Port` text fields.  Byte
sequences are `List Char`. -/

structure TMessage where
  Data : List Char

structure TParsedLocation where
  Host : List Char
  Service : List Char
  Port : List Char

/-- The pointer argument of `TRequestData::AddPart`: every call site in
http_common.h passes either `~req->Mem` (the start of the buffer's owned
scratch region) or `~msg.Data` (the start of the message's own payload). -/
inductive PartPtr
  | memStart
  | dataStart
deriving DecidableEq, Repr

/-- An `IOutputStream::TPart`: a (pointer, length) fragment view. -/
structure TPart where
  ptr : PartPtr
  len : Nat
deriving DecidableEq, Repr

/-- `TRequestData`: the owned scratch region `Mem` (allocated with capacity
`memCap`; `Mem` holds the bytes actually written through the `TMemoryOutput`
cursor) and the ordered fragment list `Parts_`. -/
structure TRequestData where
  memCap : Nat
  Mem : List Char
  Parts : List TPart
deriving DecidableEq, Repr

/-- The bytes a fragment denotes: `memStart` fragments view the first `len`
bytes of the owned scratch region, `dataStart` fragments the first `len`
bytes of the message's payload. -/
def partBytes (msg : TMessage) (rd : TRequestData) (p : TPart) : List Char :=
  match p.ptr with
  | .memStart => rd.Mem.take p.len
  | .dataStart => msg.Data.take p.len

/-- The wire output of a request buffer: its fragments' bytes, concatenated
in order (`TRequestData::SendTo` writes exactly `Parts_` to the sink). -/
def wireBytes (msg : TMessage) (rd : TRequestData) : List Char :=
  (rd.Parts.map (partBytes msg rd)).flatten

/-- Modelled from the spec: `TMemoryOutput` (util/stream/mem.h, not under
`src/`) is the bounds-checked cursor the builders write through; the spec
says exceeding the pre-sized estimate is a fatal internal error, so a write
that would run past the capacity fails instead of producing bytes. -/
def memWrite (cap : Nat) (buf : List Char) (s : List Char) : Option (List Char) :=
  if buf.length + s.length ≤ cap then some (buf ++ s) else none

/-- Perform the builder's `out << ...` writes in order, each through the
bounds-checked cursor. -/
def writeAll (cap : Nat) : List (List Char) → List Char → Option (List Char)
  | [], buf => some buf
  | s :: rest, buf =>
      match memWrite cap buf s with
      | some buf2 => writeAll cap rest buf2
      | none => none

/-- Decimal digit emission, fuel-based so that it reduces structurally (the
fuel `n + 1` is always sufficient). -/
def decimalDigitsAux : Nat → Nat → List Char → List Char
  | 0, _, acc => acc
  | fuel + 1, n, acc =>
      if n < 10 then Nat.digitChar n :: acc
      else decimalDigitsAux fuel (n / 10) (Nat.digitChar (n % 10) :: acc)

/-- Modelled from the spec: `operator<<` for an integer (`+msg.Data`, a
`size_t`) writes its decimal representation (the spec: "the decimal
Content-Length digits"); the stream implementation itself is util code not
under `src/`. -/
def decimalDigits (n : Nat) : List Char := decimalDigitsAux (n + 1) n []

/-! ### The three request builders (lines 111-173) -/

/-- The sequence of writes `TRequestGet::Build` performs:
`"GET /" << Service`, then `'?' << Data` when `Data` is non-empty, then
`" HTTP/1.1\r\nHost: " << Host`, then `":" << Port` when `Port` is
non-empty, then `"\r\n\r\n"`. -/
def getWrites (msg : TMessage) (loc : TParsedLocation) : List (List Char) :=
  ["GET /".data, loc.Service]
    ++ (if msg.Data = [] then [] else [['?'], msg.Data])
    ++ [" HTTP/1.1\r\nHost: ".data, loc.Host]
    ++ (if loc.Port = [] then [] else [":".data, loc.Port])
    ++ ["\r\n\r\n".data]

/-- `TRequestGet::Build`: scratch capacity `50 + +loc.Service + +msg.Data +
+loc.Host`; writes `getWrites` through the cursor, then adds the single
fragment `(~req->Mem, out.Buf() - ~req->Mem)` covering the written bytes. -/
def TRequestGet.Build (msg : TMessage) (loc : TParsedLocation) :
    Option TRequestData :=
  match writeAll (50 + loc.Service.length + msg.Data.length + loc.Host.length)
      (getWrites msg loc) [] with
  | some mem =>
      some ⟨50 + loc.Service.length + msg.Data.length + loc.Host.length, mem,
            [⟨.memStart, mem.length⟩]⟩
  | none => none

/-- `TRequestGet::Name()`: `"http"`. -/
def TRequestGet.Name : List Char := "http".data

/-- The sequence of writes `TRequestPost::Build` performs:
`"POST /" << Service << " HTTP/1.1\r\nHost: " << Host`, then
`":" << Port` when `Port` is non-empty, then
`"\r\nContent-Length: " << +msg.Data << "\r\n\r\n"`. -/
def postWrites (msg : TMessage) (loc : TParsedLocation) : List (List Char) :=
  ["POST /".data, loc.Service, " HTTP/1.1\r\nHost: ".data, loc.Host]
    ++ (if loc.Port = [] then [] else [":".data, loc.Port])
    ++ ["\r\nContent-Length: ".data, decimalDigits msg.Data.length,
        "\r\n\r\n".data]

/-- `TRequestPost::Build`: scratch capacity `100 + +loc.Service + +loc.Host`;
writes `postWrites` through the cursor, then adds the header fragment
`(~req->Mem, written)` followed by the zero-copy payload fragment
`(~msg.Data, +msg.Data)`. -/
def TRequestPost.Build (msg : TMessage) (loc : TParsedLocation) :
    Option TRequestData :=
  match writeAll (100 + loc.Service.length + loc.Host.length)
      (postWrites msg loc) [] with
  | some mem =>
      some ⟨100 + loc.Service.length + loc.Host.length, mem,
            [⟨.memStart, mem.length⟩, ⟨.dataStart, msg.Data.length⟩]⟩
  | none => none

/-- `TRequestPost::Name()`: `"post"`. -/
def TRequestPost.Name : List Char := "post".data

/-- `TRequestFull::Build`: allocates a zero-sized scratch region
(`TRequestData(0)`), ignores the location argument, and adds the single
zero-copy fragment `(~msg.Data, +msg.Data)`. -/
def TRequestFull.Build (msg : TMessage) (_loc : TParsedLocation) :
    Option TRequestData :=
  some ⟨0, [], [⟨.dataStart, msg.Data.length⟩]⟩

/-- `TRequestFull::Name()`: `"full"`. -/
def TRequestFull.Name : List Char := "full".data

/-! ### MakeFullRequest request-type resolution (lines 199-208) -/

/-- `ERequestType` from http_common.h. -/
inductive ERequestType
  | Any
  | Post
  | Get
  | Put
  | Delete
deriving DecidableEq, Repr

/-- Modelled from the spec: the http-family scheme test used by
`MakeFullRequest` (its definition, http_common.cpp, is not under `src/`;
the header only declares it).  The spec: "the message's addressing scheme
belongs to the http-family (http/https/http2)". -/
def isHttpFamilyScheme (scheme : List Char) : Bool :=
  scheme = "http".data || scheme = "https".data || scheme = "http2".data

/-- Modelled from the spec: `MakeFullRequest`'s request-type resolution
(its definition is not under `src/`).  The header's comment and the spec:
"If reqType is Any, then request type is POST, unless content is empty and
schema prefix is http/https/http2, in that case request type is GET";
explicit Post/Get/Put/Delete are used as given. -/
def resolveRequestType (reqType : ERequestType) (content : List Char)
    (scheme : List Char) : ERequestType :=
  match reqType with
  | .Any =>
      if content = [] && isHttpFamilyScheme scheme then ERequestType.Get
      else ERequestType.Post
  | t => t

/-! ### TLockFreeSequence: interleaving model of the `GetList` race (lines 65-77)

For the concurrency claim we model `T` threads racing `GetList` on one
not-yet-published segment slot.  Each thread runs the source loop

  while (!AtomicGet(*t)) \x7b
      TArrayHolder<T> nt(new T[1 << n]);
      if (AtomicCas(t, nt.Get(), nullptr)) return nt.Release();
      // holder frees nt here, loop re-reads the slot
  \x7d
  return *t;

as a small-step program: `start` (about to read the slot), `holding a`
(allocated speculative array `a`, about to CAS), `done r` (returned `r`).
Arrays are abstracted as allocation ids handed out by the counter `next`;
`freed` lists the ids freed so far (by losing threads). -/

inductive TThread
  | start
  | holding (a : Nat)
  | done (r : Nat)
deriving DecidableEq, Repr

structure RaceState where
  slot : Option Nat
  next : Nat
  freed : List Nat
  thr : List TThread
deriving DecidableEq, Repr

/-- Initial state: slot null (`memset` in the constructor), no allocations,
nothing freed, `T` threads about to call `GetList`. -/
def initRace (T : Nat) : RaceState :=
  ⟨none, 0, [], List.replicate T TThread.start⟩

/-- One interleaved step of some thread, following the source loop:
`read` — `AtomicGet` sees a published array and the loop exits returning it;
`alloc` — `AtomicGet` sees null, so the thread allocates a fresh array;
`casWin` — `AtomicCas(t, nt.Get(), nullptr)` succeeds: the speculative array
is published and `Release`d (retained);
`casLose` — the CAS fails because the slot is no longer null: the holder
frees the speculative array and the thread re-enters the loop. -/
inductive RaceStep : RaceState → RaceState → Prop
  | read (a nx : Nat) (fr : List Nat) (pre post : List TThread) :
      RaceStep ⟨some a, nx, fr, pre ++ TThread.start :: post⟩
               ⟨some a, nx, fr, pre ++ TThread.done a :: post⟩
  | alloc (nx : Nat) (fr : List Nat) (pre post : List TThread) :
      RaceStep ⟨none, nx, fr, pre ++ TThread.start :: post⟩
               ⟨none, nx + 1, fr, pre ++ TThread.holding nx :: post⟩
  | casWin (a nx : Nat) (fr : List Nat) (pre post : List TThread) :
      RaceStep ⟨none, nx, fr, pre ++ TThread.holding a :: post⟩
               ⟨some a, nx, fr, pre ++ TThread.done a :: post⟩
  | casLose (a b nx : Nat) (fr : List Nat) (pre post : List TThread) :
      RaceStep ⟨some b, nx, fr, pre ++ TThread.holding a :: post⟩
               ⟨some b, nx, a :: fr, pre ++ TThread.start :: post⟩

/-- Reachability under any interleaving. -/
def RaceReach : RaceState → RaceState → Prop :=
  Relation.ReflTransGen RaceStep

/-- The ids freed by `~TLockFreeSequence()` on top of the ones already freed
by losing threads: the destructor `delete[]`s every non-null slot. -/
def destructorFreed (s : RaceState) : List Nat :=
  s.freed ++ s.slot.toList

/-- The speculative allocation ids currently held (not yet published, not
yet freed) by threads. -/
def heldIds : List TThread → List Nat
  | [] => []
  | TThread.start :: rest => heldIds rest
  | TThread.holding a :: rest => a :: heldIds rest
  | TThread.done _ :: rest => heldIds rest

/-! ### Concrete test fixtures and the race invariant -/

/-- Test message with payload "q=1" (from the spec's POST example). -/
def msgQEx : TMessage := ⟨"q=1".data⟩

/-- Test message with an empty payload. -/
def msgEmptyEx : TMessage := ⟨[]⟩

/-- The spec's example location: host "example.com", service "search",
empty port. -/
def locEx : TParsedLocation := ⟨"example.com".data, "search".data, []⟩

/-- A location whose port string is 24 bytes long (everything else empty). -/
def longPortLoc : TParsedLocation := ⟨[], [], "012345678901234567890123".data⟩

/-- The request buffer the GET builder produces for the spec's example. -/
def rdGetEx : TRequestData :=
  ⟨67, "GET /search HTTP/1.1\r\nHost: example.com\r\n\r\n".data,
   [⟨PartPtr.memStart, 43⟩]⟩

/-- The request buffer the POST builder produces for the spec's example. -/
def rdPostEx : TRequestData :=
  ⟨117,
   "POST /search HTTP/1.1\r\nHost: example.com\r\nContent-Length: 3\r\n\r\n".data,
   [⟨PartPtr.memStart, 63⟩, ⟨PartPtr.dataStart, 3⟩]⟩

/-- The ownership/accounting invariant of the race: every allocation id
below the counter is owned by exactly one party — a thread still holding it
speculatively, the freed list, or the published slot — and a finished
thread always returned the published array. -/
def raceInv (s : RaceState) : Prop :=
  (heldIds s.thr ++ s.freed ++ s.slot.toList).Perm (List.range s.next)
  ∧ ∀ r, TThread.done r ∈ s.thr → s.slot = some r

/-- The final state of a concrete two-thread race: both threads allocated
(ids 0 and 1), thread 0 won the CAS, thread 1 lost, freed its id 1 and then
read the published id 0. -/
def raceFinalEx : RaceState :=
  ⟨some 0, 2, [1], [TThread.done 0, TThread.done 0]⟩

/-! ## Helper lemmas -/

theorem bitCountAux_zero : ∀ fuel, bitCountAux fuel 0 = 0 := by
  intro fuel
  cases fuel <;> simp [bitCountAux]

/-- The fuel does not matter as long as it is at least the value: the bounds
below only use this stable form. -/
theorem bitCountAux_bounds :
    ∀ fuel v, 0 < v → v ≤ fuel →
      2 ^ (bitCountAux fuel v - 1) ≤ v ∧ v < 2 ^ bitCountAux fuel v := by
  intro fuel
  induction fuel with
  | zero => intro v hv hle; omega
  | succ fuel ih =>
      intro v hv hle
      rw [bitCountAux, if_neg (by omega)]
      rcases Nat.lt_or_ge v 2 with h2 | h2
      · have hv1 : v = 1 := by omega
        subst hv1
        simp [bitCountAux_zero]
      · have hdpos : 0 < v / 2 := by omega
        have hdle : v / 2 ≤ fuel := by omega
        obtain ⟨hlo, hhi⟩ := ih (v / 2) hdpos hdle
        obtain ⟨k', hk'⟩ : ∃ k', bitCountAux fuel (v / 2) = k' + 1 := by
          refine ⟨bitCountAux fuel (v / 2) - 1, ?_⟩
          have : 0 < bitCountAux fuel (v / 2) := by
            by_contra hzero
            have h0 : bitCountAux fuel (v / 2) = 0 := by omega
            rw [h0] at hhi
            omega
          omega
        rw [hk'] at hlo hhi ⊢
        have hsub : k' + 1 - 1 = k' := by omega
        rw [hsub] at hlo
        have e1 : 2 ^ (k' + 1) = 2 * 2 ^ k' := by rw [Nat.pow_succ]; ring
        have e2 : 2 ^ (k' + 1 + 1) = 4 * 2 ^ k' := by rw [Nat.pow_succ, Nat.pow_succ]; ring
        have hsub2 : k' + 1 + 1 - 1 = k' + 1 := by omega
        rw [hsub2, e1, e2]
        have hvd : 2 * (v / 2) ≤ v ∧ v < 2 * (v / 2) + 2 := by omega
        omega

theorem getValueBitCount_bounds (n : Nat) (hn : 0 < n) :
    2 ^ (GetValueBitCount n - 1) ≤ n ∧ n < 2 ^ GetValueBitCount n :=
  bitCountAux_bounds n n hn (Nat.le_refl n)

theorem getValueBitCount_pos (n : Nat) : 0 < GetValueBitCount (n + 1) := by
  have h := getValueBitCount_bounds (n + 1) (Nat.succ_pos n)
  by_contra hzero
  have h0 : GetValueBitCount (n + 1) = 0 := by omega
  rw [h0] at h
  omega

theorem segIdx_bounds (n : Nat) :
    2 ^ segIdx n ≤ n + 1 ∧ n + 1 < 2 ^ (segIdx n + 1) := by
  have h := getValueBitCount_bounds (n + 1) (Nat.succ_pos n)
  have hp := getValueBitCount_pos n
  unfold segIdx
  have heq : GetValueBitCount (n + 1) - 1 + 1 = GetValueBitCount (n + 1) := by omega
  rw [heq]
  exact h

/-- `Get` never overwrites a published segment slot. -/
theorem TLockFreeSequence.get_preserves (s : TLockFreeSequence) (k : Nat)
    {i a : Nat} (h : s.tbl i = some a) : (s.Get k).2.tbl i = some a := by
  unfold TLockFreeSequence.Get TLockFreeSequence.GetList
  cases hc : s.tbl (segIdx k) with
  | some b => simpa [hc] using h
  | none =>
      simp only [hc]
      by_cases hi : i = segIdx k
      · rw [hi] at h
        rw [hc] at h
        exact absurd h (by simp)
      · simpa [hi] using h

theorem TLockFreeSequence.runGets_preserves :
    ∀ (ops : List Nat) (s : TLockFreeSequence) {i a : Nat},
      s.tbl i = some a → (s.runGets ops).tbl i = some a := by
  intro ops
  induction ops with
  | nil => intro s i a h; exact h
  | cons k rest ih =>
      intro s i a h
      exact ih _ (s.get_preserves k h)

/-- `Get n` leaves the segment slot for `n` published with the array it
returned. -/
theorem TLockFreeSequence.get_publishes (s : TLockFreeSequence) (n : Nat) :
    (s.Get n).2.tbl (segIdx n) = some (s.Get n).1.1 := by
  unfold TLockFreeSequence.Get TLockFreeSequence.GetList
  cases hc : s.tbl (segIdx n) with
  | some b => simp [hc]
  | none => simp [hc]

theorem writeAll_eq (cap : Nat) :
    ∀ (l : List (List Char)) (buf : List Char), buf.length ≤ cap →
      writeAll cap l buf =
        if buf.length + (l.map List.length).sum ≤ cap
        then some (buf ++ l.flatten) else none := by
  intro l
  induction l with
  | nil =>
      intro buf hbuf
      simp only [writeAll, List.map_nil, List.sum_nil, List.flatten_nil,
        List.append_nil, Nat.add_zero]
      rw [if_pos hbuf]
  | cons s rest ih =>
      intro buf hbuf
      have hstep : writeAll cap (s :: rest) buf =
          if buf.length + s.length ≤ cap then writeAll cap rest (buf ++ s)
          else none := by
        rw [writeAll, memWrite]
        split_ifs with h <;> rfl
      rw [hstep]
      by_cases h1 : buf.length + s.length ≤ cap
      · rw [if_pos h1, ih (buf ++ s) (by simp only [List.length_append]; omega)]
        simp only [List.length_append, List.map_cons, List.sum_cons,
          List.flatten_cons, List.append_assoc]
        have hassoc : buf.length + s.length + (rest.map List.length).sum
            = buf.length + (s.length + (rest.map List.length).sum) := by omega
        rw [hassoc]
      · rw [if_neg h1]
        rw [if_neg (by simp only [List.map_cons, List.sum_cons]; omega)]

theorem decimalDigitsAux_length_le :
    ∀ (fuel k n : Nat) (acc : List Char), 0 < k → n < 10 ^ k →
      (decimalDigitsAux fuel n acc).length ≤ acc.length + k := by
  intro fuel
  induction fuel with
  | zero => intro k n acc hk _; simp [decimalDigitsAux]
  | succ fuel ih =>
      intro k n acc hk hn
      rw [decimalDigitsAux]
      split_ifs with h10
      · simp
        omega
      · have hk2 : 2 ≤ k := by
          by_contra hlt
          have hk1 : k = 1 := by omega
          rw [hk1] at hn
          simp at hn
          omega
        have hdiv : n / 10 < 10 ^ (k - 1) := by
          have hk1 : k - 1 + 1 = k := by omega
          have hexp : 10 ^ (k - 1) * 10 = 10 ^ k := by
            calc 10 ^ (k - 1) * 10 = 10 ^ (k - 1 + 1) := (Nat.pow_succ 10 (k - 1)).symm
              _ = 10 ^ k := by rw [hk1]
          rw [Nat.div_lt_iff_lt_mul (by omega)]
          omega
        have := ih (k - 1) (n / 10) (Nat.digitChar (n % 10) :: acc) (by omega) hdiv
        simp at this
        omega

theorem decimalDigits_length_le (k n : Nat) (hk : 0 < k) (hn : n < 10 ^ k) :
    (decimalDigits n).length ≤ k := by
  have h := decimalDigitsAux_length_le (n + 1) k n [] hk hn
  simpa [decimalDigits] using h

/-! ## Claim theorems -/

/-- Claim C2: for every `n`, repeated calls to `TLockFreeSequence::Get(n)` on
the same container return the same slot address: the first `Get n` returns
(segment array, offset) and, after any further sequence of `Get` calls on
arbitrary indices, `Get n` returns the same pair; moreover once a segment
slot is published (non-null), no later operation replaces its stored
pointer. -/
theorem lockFreeSequence_get_stable (s : TLockFreeSequence) (n : Nat)
    (ops : List Nat) :
    (((s.Get n).2.runGets ops).Get n).1 = (s.Get n).1
    ∧ (∀ i a, s.tbl i = some a → (s.runGets ops).tbl i = some a) := by
  constructor
  · have hpub := s.get_publishes n
    have hkeep := TLockFreeSequence.runGets_preserves ops (s.Get n).2 hpub
    show ((((s.Get n).2.runGets ops).GetList (segIdx n)).1, segOff n) = _
    unfold TLockFreeSequence.GetList
    rw [hkeep]
    rfl
  · intro i a h
    exact TLockFreeSequence.runGets_preserves ops s h

/-- Witness for C2 at concrete inputs: after first publishing segment 0 via
`Get 0`, the address of slot 3 survives further `Get`s, and the published
segment-0 slot is untouched by them. -/
theorem lockFreeSequence_get_stable_witness :
    ((((TLockFreeSequence.mkEmpty.Get 0).2.Get 3).2.runGets [0, 1, 2, 10]).Get 3).1
        = ((TLockFreeSequence.mkEmpty.Get 0).2.Get 3).1
    ∧ (((TLockFreeSequence.mkEmpty.Get 0).2.runGets [0, 1, 2, 10]).tbl 0 = some 0) :=
  ⟨(lockFreeSequence_get_stable (TLockFreeSequence.mkEmpty.Get 0).2 3 [0, 1, 2, 10]).1,
   (lockFreeSequence_get_stable (TLockFreeSequence.mkEmpty.Get 0).2 3 [0, 1, 2, 10]).2 0 0 rfl⟩

/-- Claim C3: `Get(n)` addresses segment `i = bit-length(n+1) - 1` at offset
`(n+1) - 2^i`; this offset always lies in `[0, 2^i)` (within the `2^i`
elements segment `i` holds), and distinct logical indices never map to the
same (segment, offset) pair. -/
theorem lockFreeSequence_get_mapping (s : TLockFreeSequence) (n : Nat) :
    (s.Get n).1.2 = n + 1 - 2 ^ (GetValueBitCount (n + 1) - 1)
    ∧ segOff n < 2 ^ segIdx n
    ∧ (∀ m, segIdx m = segIdx n → segOff m = segOff n → m = n) := by
  refine ⟨rfl, ?_, ?_⟩
  · obtain ⟨hlo, hhi⟩ := segIdx_bounds n
    unfold segOff
    have e1 : 2 ^ (segIdx n + 1) = 2 * 2 ^ segIdx n := by rw [Nat.pow_succ]; ring
    omega
  · intro m hseg hoff
    obtain ⟨hlo, hhi⟩ := segIdx_bounds n
    obtain ⟨hlo2, hhi2⟩ := segIdx_bounds m
    unfold segOff at hoff
    rw [hseg] at hoff hlo2
    omega

/-- Witness for C3: at `n = 6` the slot is segment 2, offset 3, inside the
4 elements of segment 2, and only `n = 6` maps there. -/
theorem lockFreeSequence_get_mapping_witness :
    (TLockFreeSequence.mkEmpty.Get 6).1.2 = 6 + 1 - 2 ^ (GetValueBitCount 7 - 1)
    ∧ segOff 6 < 2 ^ segIdx 6
    ∧ 6 = 6 :=
  ⟨(lockFreeSequence_get_mapping TLockFreeSequence.mkEmpty 6).1,
   (lockFreeSequence_get_mapping TLockFreeSequence.mkEmpty 6).2.1,
   (lockFreeSequence_get_mapping TLockFreeSequence.mkEmpty 6).2.2 6 rfl rfl⟩

/-- Claim C9: `TFdLimits::Delta()` is `max(Hard - Soft, 0)` in exact integer
arithmetic — `Hard - Soft` when `Hard > Soft` and `0` otherwise, never
wrapping; the default-constructed limits (Soft 10000, Hard 15000) give
`Delta() = 5000`, and Soft 10000 / Hard 8000 give `0`. -/
theorem fdLimits_delta (soft hard : Nat) :
    ((TFdLimits.Delta ⟨soft, hard⟩ : Nat) : ℤ) = max ((hard : ℤ) - (soft : ℤ)) 0
    ∧ TFdLimits.mkDefault.Delta = 5000
    ∧ TFdLimits.Delta ⟨10000, 8000⟩ = 0 := by
  refine ⟨?_, by decide, by decide⟩
  unfold TFdLimits.Delta TFdLimits.ExceedLimit
  simp only
  split_ifs with h <;> omega

/-- Claim C10: the builders' fixed protocol identifiers: `TRequestGet::Name()`
is "http", `TRequestPost::Name()` is "post", `TRequestFull::Name()` is
"full". -/
theorem builder_names :
    TRequestGet.Name = "http".data
    ∧ TRequestPost.Name = "post".data
    ∧ TRequestFull.Name = "full".data :=
  ⟨rfl, rfl, rfl⟩

/-- Claim C8: `MakeFullRequest` resolves a requested type of `Any` to GET
exactly when the content is empty and the scheme is in the http family
(http/https/http2), to POST in every other case, and keeps explicitly
requested Post/Get/Put/Delete unchanged. -/
theorem makeFullRequest_type_resolution (content scheme : List Char) :
    ((resolveRequestType ERequestType.Any content scheme = ERequestType.Get)
        ↔ (content = [] ∧ isHttpFamilyScheme scheme = true))
    ∧ ((resolveRequestType ERequestType.Any content scheme = ERequestType.Post)
        ↔ ¬(content = [] ∧ isHttpFamilyScheme scheme = true))
    ∧ resolveRequestType ERequestType.Post content scheme = ERequestType.Post
    ∧ resolveRequestType ERequestType.Get content scheme = ERequestType.Get
    ∧ resolveRequestType ERequestType.Put content scheme = ERequestType.Put
    ∧ resolveRequestType ERequestType.Delete content scheme = ERequestType.Delete := by
  refine ⟨?_, ?_, rfl, rfl, rfl, rfl⟩ <;>
    · unfold resolveRequestType
      split_ifs with h
      · simp only [Bool.and_eq_true, decide_eq_true_eq] at h
        simp [h]
      · simp only [Bool.and_eq_true, decide_eq_true_eq] at h
        simp [h]

/-- Witness for C8: empty content over scheme "http" resolves `Any` to GET;
non-empty content resolves `Any` to POST; an explicit POST stays POST. -/
theorem makeFullRequest_type_resolution_witness :
    resolveRequestType ERequestType.Any [] "http".data = ERequestType.Get
    ∧ resolveRequestType ERequestType.Any "x".data "http".data = ERequestType.Post
    ∧ resolveRequestType ERequestType.Post [] "http".data = ERequestType.Post :=
  ⟨(makeFullRequest_type_resolution [] "http".data).1.mpr ⟨rfl, by decide⟩,
   (makeFullRequest_type_resolution "x".data "http".data).2.1.mpr (by simp),
   (makeFullRequest_type_resolution [] "http".data).2.2.1⟩

/-- Claim C7: `TRequestFull::Build` allocates a zero-sized scratch region,
ignores the location entirely, and its sole fragment is the message's raw
data referenced verbatim (zero-copy), so the wire output is byte-identical
to the data — including an empty payload, which yields a single zero-length
fragment. -/
theorem requestFull_passthrough (msg : TMessage) (loc loc2 : TParsedLocation) :
    TRequestFull.Build msg loc
        = some ⟨0, [], [⟨PartPtr.dataStart, msg.Data.length⟩]⟩
    ∧ TRequestFull.Build msg loc = TRequestFull.Build msg loc2
    ∧ (∀ rd, TRequestFull.Build msg loc = some rd → wireBytes msg rd = msg.Data) := by
  refine ⟨rfl, rfl, ?_⟩
  intro rd h
  cases h
  simp [wireBytes, partBytes, List.take_length]

/-- Witness for C7 at the empty payload: the sole fragment is zero-length and
the wire output is empty. -/
theorem requestFull_passthrough_witness :
    TRequestFull.Build ⟨[]⟩ ⟨[], [], []⟩
        = some ⟨0, [], [⟨PartPtr.dataStart, 0⟩]⟩
    ∧ wireBytes ⟨[]⟩ ⟨0, [], [⟨PartPtr.dataStart, 0⟩]⟩ = [] :=
  ⟨(requestFull_passthrough ⟨[]⟩ ⟨[], [], []⟩ ⟨[], [], []⟩).1,
   (requestFull_passthrough ⟨[]⟩ ⟨[], [], []⟩ ⟨[], [], []⟩).2.2 _ rfl⟩

theorem getWrites_sum (msg : TMessage) (loc : TParsedLocation) :
    ((getWrites msg loc).map List.length).sum
      = 26 + loc.Service.length + loc.Host.length
        + (if msg.Data = [] then 0 else 1 + msg.Data.length)
        + (if loc.Port = [] then 0 else 1 + loc.Port.length) := by
  have e1 : ("GET /".data).length = 5 := rfl
  have e2 : (" HTTP/1.1\r\nHost: ".data).length = 17 := rfl
  have e3 : ("\r\n\r\n".data).length = 4 := rfl
  have e4 : ((":".data) : List Char).length = 1 := rfl
  by_cases hd : msg.Data = [] <;> by_cases hp : loc.Port = [] <;>
    · simp [getWrites, hd, hp, e1, e2, e3, e4]
      omega

theorem postWrites_sum (msg : TMessage) (loc : TParsedLocation) :
    ((postWrites msg loc).map List.length).sum
      = 45 + loc.Service.length + loc.Host.length
        + (if loc.Port = [] then 0 else 1 + loc.Port.length)
        + (decimalDigits msg.Data.length).length := by
  have e1 : ("POST /".data).length = 6 := rfl
  have e2 : (" HTTP/1.1\r\nHost: ".data).length = 17 := rfl
  have e3 : ("\r\n\r\n".data).length = 4 := rfl
  have e4 : ((":".data) : List Char).length = 1 := rfl
  have e5 : ("\r\nContent-Length: ".data).length = 18 := rfl
  by_cases hp : loc.Port = [] <;>
    · simp [postWrites, hp, e1, e2, e3, e4, e5]
      omega

/-- Claim C4 (amended): the bytes each builder writes into its scratch
buffer stay within the pre-sized estimate — `50 + len(Service) + len(Data)
+ len(Host)` for GET and `100 + len(Service) + len(Host)` for POST —
provided the location's port string is at most 22 bytes long and the
payload length fits in a `size_t` (`< 2^64`); the GET estimate has only 24
bytes of slack beyond the constant header text, so it does not cover
arbitrary port strings (see the counterexample). -/
theorem builders_size_within_estimate (msg : TMessage) (loc : TParsedLocation)
    (hport : loc.Port.length ≤ 22) (hdata : msg.Data.length < 2 ^ 64) :
    (∃ rd, TRequestGet.Build msg loc = some rd
        ∧ rd.Mem.length
            ≤ 50 + loc.Service.length + msg.Data.length + loc.Host.length)
    ∧ (∃ rd, TRequestPost.Build msg loc = some rd
        ∧ rd.Mem.length ≤ 100 + loc.Service.length + loc.Host.length) := by
  have hdig : (decimalDigits msg.Data.length).length ≤ 20 := by
    refine decimalDigits_length_le 20 _ (by omega) ?_
    have hcmp : (2 : Nat) ^ 64 < 10 ^ 20 := by norm_num
    omega
  have hsumget : ((getWrites msg loc).map List.length).sum
      ≤ 50 + loc.Service.length + msg.Data.length + loc.Host.length := by
    rw [getWrites_sum]
    split_ifs <;> omega
  have hsumpost : ((postWrites msg loc).map List.length).sum
      ≤ 100 + loc.Service.length + loc.Host.length := by
    rw [postWrites_sum]
    split_ifs <;> omega
  constructor
  · have hbuild : TRequestGet.Build msg loc
        = some ⟨50 + loc.Service.length + msg.Data.length + loc.Host.length,
                (getWrites msg loc).flatten,
                [⟨PartPtr.memStart, ((getWrites msg loc).flatten).length⟩]⟩ := by
      unfold TRequestGet.Build
      rw [writeAll_eq _ _ _ (by simp), if_pos (by simpa using hsumget)]
      rfl
    refine ⟨_, hbuild, ?_⟩
    show ((getWrites msg loc).flatten).length ≤ _
    rw [List.length_flatten]
    exact hsumget
  · have hbuild : TRequestPost.Build msg loc
        = some ⟨100 + loc.Service.length + loc.Host.length,
                (postWrites msg loc).flatten,
                [⟨PartPtr.memStart, ((postWrites msg loc).flatten).length⟩,
                 ⟨PartPtr.dataStart, msg.Data.length⟩]⟩ := by
      unfold TRequestPost.Build
      rw [writeAll_eq _ _ _ (by simp), if_pos (by simpa using hsumpost)]
      rfl
    refine ⟨_, hbuild, ?_⟩
    show ((postWrites msg loc).flatten).length ≤ _
    rw [List.length_flatten]
    exact hsumpost

/-- Witness for C4: both builders stay within their estimates on the spec's
example message and location. -/
theorem builders_size_within_estimate_witness :
    (∃ rd, TRequestGet.Build msgQEx locEx = some rd
        ∧ rd.Mem.length
            ≤ 50 + locEx.Service.length + msgQEx.Data.length + locEx.Host.length)
    ∧ (∃ rd, TRequestPost.Build msgQEx locEx = some rd
        ∧ rd.Mem.length ≤ 100 + locEx.Service.length + locEx.Host.length) :=
  builders_size_within_estimate msgQEx locEx (by decide) (by decide)

/-- Counterexample to C4 as stated: with an empty service, payload and host
but a 24-byte port string, the GET builder must write 51 bytes — more than
its pre-sized estimate `50 + 0 + 0 + 0` — so the bounds-checked cursor
overflows (the build fails instead of staying within the estimate). -/
theorem requestGet_size_estimate_refuted :
    ((getWrites msgEmptyEx longPortLoc).map List.length).sum = 51
    ∧ 50 + longPortLoc.Service.length + msgEmptyEx.Data.length
        + longPortLoc.Host.length = 50
    ∧ TRequestGet.Build msgEmptyEx longPortLoc = none := by
  refine ⟨by decide, by decide, by decide⟩

/-- Claim C5: whenever the GET builder produces a request, its output bytes
(the concatenation of its fragments) are exactly
`GET /` + service + (`?` + data iff data non-empty) + ` HTTP/1.1\r\nHost: `
+ host + (`:` + port iff port non-empty) + `\r\n\r\n`. -/
theorem requestGet_wire_format (msg : TMessage) (loc : TParsedLocation)
    (rd : TRequestData) (h : TRequestGet.Build msg loc = some rd) :
    wireBytes msg rd =
      "GET /".data ++ loc.Service
        ++ (if msg.Data = [] then [] else '?' :: msg.Data)
        ++ " HTTP/1.1\r\nHost: ".data ++ loc.Host
        ++ (if loc.Port = [] then [] else ':' :: loc.Port)
        ++ "\r\n\r\n".data := by
  unfold TRequestGet.Build at h
  rw [writeAll_eq _ _ _ (by simp)] at h
  split_ifs at h with hc
  · injection h with h2
    subst h2
    show ((getWrites msg loc).flatten).take ((getWrites msg loc).flatten).length
        ++ [] = _
    rw [List.append_nil, List.take_length]
    by_cases hd : msg.Data = [] <;> by_cases hp : loc.Port = [] <;>
      simp [getWrites, hd, hp]

/-- Witness for C5: for host "example.com", service "search", empty port and
empty data the GET builder produces exactly
`GET /search HTTP/1.1\r\nHost: example.com\r\n\r\n`. -/
theorem requestGet_wire_format_witness :
    TRequestGet.Build msgEmptyEx locEx = some rdGetEx
    ∧ wireBytes msgEmptyEx rdGetEx
        = "GET /search HTTP/1.1\r\nHost: example.com\r\n\r\n".data := by
  refine ⟨by decide, ?_⟩
  rw [requestGet_wire_format msgEmptyEx locEx rdGetEx (by decide)]
  decide

/-- Claim C6: whenever the POST builder produces a request, it has exactly
two fragments: the header block
`POST /` + service + ` HTTP/1.1\r\nHost: ` + host + (`:` + port iff port
non-empty) + `\r\nContent-Length: ` + decimal(len(data)) + `\r\n\r\n`, and a
second fragment that references the message's raw data verbatim without
copying it (its pointer is the data's address and its length the data's
length). -/
theorem requestPost_fragments (msg : TMessage) (loc : TParsedLocation)
    (rd : TRequestData) (h : TRequestPost.Build msg loc = some rd) :
    rd.Parts = [⟨PartPtr.memStart, rd.Mem.length⟩,
                ⟨PartPtr.dataStart, msg.Data.length⟩]
    ∧ rd.Mem =
        "POST /".data ++ loc.Service ++ " HTTP/1.1\r\nHost: ".data ++ loc.Host
          ++ (if loc.Port = [] then [] else ':' :: loc.Port)
          ++ "\r\nContent-Length: ".data ++ decimalDigits msg.Data.length
          ++ "\r\n\r\n".data
    ∧ partBytes msg rd ⟨PartPtr.dataStart, msg.Data.length⟩ = msg.Data := by
  unfold TRequestPost.Build at h
  rw [writeAll_eq _ _ _ (by simp)] at h
  split_ifs at h with hc
  · injection h with h2
    subst h2
    refine ⟨rfl, ?_, ?_⟩
    · show ((postWrites msg loc).flatten : List Char) = _
      by_cases hp : loc.Port = [] <;> simp [postWrites, hp]
    · show msg.Data.take msg.Data.length = msg.Data
      simp

/-- Witness for C6: the spec's POST example (location "example.com" /
"search", data "q=1") yields the header block with `Content-Length: 3`
followed by the zero-copy fragment whose bytes are `q=1`. -/
theorem requestPost_fragments_witness :
    TRequestPost.Build msgQEx locEx = some rdPostEx
    ∧ rdPostEx.Parts = [⟨PartPtr.memStart, 63⟩, ⟨PartPtr.dataStart, 3⟩]
    ∧ partBytes msgQEx rdPostEx ⟨PartPtr.dataStart, 3⟩ = "q=1".data := by
  refine ⟨by decide, ?_, ?_⟩
  · exact (requestPost_fragments msgQEx locEx rdPostEx (by decide)).1
  · exact (requestPost_fragments msgQEx locEx rdPostEx (by decide)).2.2

/-! ## The GetList publication race (claim C1) -/

theorem heldIds_append (l1 l2 : List TThread) :
    heldIds (l1 ++ l2) = heldIds l1 ++ heldIds l2 := by
  induction l1 with
  | nil => rfl
  | cons t rest ih => cases t <;> simp [heldIds, ih]

/-- Pull an element out of a doubly nested middle position. -/
theorem perm_shift (x : Nat) (L M F : List Nat) :
    (L ++ (M ++ (x :: F))).Perm (x :: (L ++ (M ++ F))) :=
  List.Perm.trans (List.Perm.append_left L List.perm_middle) List.perm_middle

/-- Pull a trailing singleton out of a doubly nested position. -/
theorem perm_snoc_shift (x : Nat) (L M F : List Nat) :
    (L ++ (M ++ (F ++ [x]))).Perm (x :: (L ++ (M ++ F))) :=
  List.Perm.trans
    (List.Perm.append_left L
      (List.Perm.append_left M (List.perm_append_singleton x F)))
    (perm_shift x L M F)

theorem raceStep_inv {s s' : RaceState} (hstep : RaceStep s s')
    (hinv : raceInv s) : raceInv s' := by
  obtain ⟨hperm, hdone⟩ := hinv
  cases hstep with
  | read a nx fr pre post =>
      constructor
      · simpa [raceInv, heldIds_append, heldIds] using hperm
      · intro r hr
        rcases List.mem_append.1 hr with hr | hr
        · exact hdone r (List.mem_append.2 (Or.inl hr))
        · rcases List.mem_cons.1 hr with hr | hr
          · cases hr
            rfl
          · exact hdone r (List.mem_append.2 (Or.inr (List.mem_cons_of_mem _ hr)))
  | alloc nx fr pre post =>
      constructor
      · simp only [heldIds_append, heldIds, Option.toList, List.append_nil,
          List.cons_append, List.append_assoc] at hperm ⊢
        refine List.Perm.trans List.perm_middle ?_
        refine List.Perm.trans (hperm.cons nx) ?_
        rw [List.range_succ]
        exact (List.perm_append_singleton nx (List.range nx)).symm
      · intro r hr
        have hmem : TThread.done r ∈ pre ++ TThread.start :: post := by
          rcases List.mem_append.1 hr with hr | hr
          · exact List.mem_append.2 (Or.inl hr)
          · rcases List.mem_cons.1 hr with hr | hr
            · exact absurd hr (by simp)
            · exact List.mem_append.2 (Or.inr (List.mem_cons_of_mem _ hr))
        exact hdone r hmem
  | casWin a nx fr pre post =>
      constructor
      · simp only [heldIds_append, heldIds, Option.toList, List.append_nil,
          List.cons_append, List.append_assoc] at hperm ⊢
        exact List.Perm.trans (perm_snoc_shift a _ _ _)
          (List.Perm.trans List.perm_middle.symm hperm)
      · intro r hr
        rcases List.mem_append.1 hr with hr | hr
        · have := hdone r (List.mem_append.2 (Or.inl hr))
          exact absurd this (by simp)
        · rcases List.mem_cons.1 hr with hr | hr
          · cases hr
            rfl
          · have := hdone r (List.mem_append.2 (Or.inr (List.mem_cons_of_mem _ hr)))
            exact absurd this (by simp)
  | casLose a b nx fr pre post =>
      constructor
      · simp only [heldIds_append, heldIds, Option.toList, List.append_nil,
          List.cons_append, List.append_assoc] at hperm ⊢
        exact List.Perm.trans (perm_shift a _ _ _)
          (List.Perm.trans List.perm_middle.symm hperm)
      · intro r hr
        have hmem : TThread.done r ∈ pre ++ TThread.holding a :: post := by
          rcases List.mem_append.1 hr with hr | hr
          · exact List.mem_append.2 (Or.inl hr)
          · rcases List.mem_cons.1 hr with hr | hr
            · exact absurd hr (by simp)
            · exact List.mem_append.2 (Or.inr (List.mem_cons_of_mem _ hr))
        exact hdone r hmem

theorem raceStep_thr_length {s s' : RaceState} (h : RaceStep s s') :
    s'.thr.length = s.thr.length := by
  cases h <;> simp

theorem raceReach_inv {s s' : RaceState} (h : RaceReach s s')
    (hinv : raceInv s) : raceInv s' := by
  induction h with
  | refl => exact hinv
  | tail _ hstep ih => exact raceStep_inv hstep ih

theorem raceReach_thr_length {s s' : RaceState} (h : RaceReach s s') :
    s'.thr.length = s.thr.length := by
  induction h with
  | refl => rfl
  | tail _ hstep ih => rw [raceStep_thr_length hstep, ih]

theorem heldIds_replicate (T : Nat) :
    heldIds (List.replicate T TThread.start) = [] := by
  induction T with
  | zero => rfl
  | succ T ih => simp [List.replicate, heldIds, ih]

theorem initRace_inv (T : Nat) : raceInv (initRace T) := by
  constructor
  · simp [initRace, heldIds_replicate, Option.toList]
  · intro r hr
    have := List.eq_of_mem_replicate hr
    exact absurd this (by simp)

theorem heldIds_eq_nil_of_done (l : List TThread)
    (h : ∀ th ∈ l, ∃ r, th = TThread.done r) : heldIds l = [] := by
  induction l with
  | nil => rfl
  | cons t rest ih =>
      obtain ⟨r, hr⟩ := h t (List.mem_cons_self t rest)
      subst hr
      simp only [heldIds]
      exact ih fun th hth => h th (List.mem_cons_of_mem _ hth)

/-- Claim C1: when any number `T ≥ 1` of threads race `GetList` on the same
not-yet-published segment slot, in every reachable state where all threads
have finished, exactly one speculatively allocated array has been published
(retained) in the slot, every thread returned that same winning array, the
winner has not been freed by any thread, each losing speculative allocation
was freed by its owner, and the destructor's `delete[]` of the slot then
frees every allocation ever made exactly once — no leak and no
double-free. -/
theorem lockFreeSequence_race_single_winner (T : Nat) (s : RaceState)
    (hT : 0 < T) (hreach : RaceReach (initRace T) s)
    (hdone : ∀ th ∈ s.thr, ∃ r, th = TThread.done r) :
    ∃ w, s.slot = some w
      ∧ (∀ th ∈ s.thr, th = TThread.done w)
      ∧ w ∉ s.freed
      ∧ (destructorFreed s).Perm (List.range s.next) := by
  obtain ⟨hperm, hret⟩ := raceReach_inv hreach (initRace_inv T)
  have hlen : s.thr.length = T := by
    rw [raceReach_thr_length hreach]
    simp [initRace]
  obtain ⟨th0, hth0⟩ : ∃ th, th ∈ s.thr := by
    have hne : s.thr ≠ [] := by
      intro hnil
      rw [hnil] at hlen
      simp at hlen
      omega
    exact ⟨s.thr.head hne, List.head_mem hne⟩
  obtain ⟨w, hw⟩ := hdone th0 hth0
  have hslot : s.slot = some w := hret w (hw ▸ hth0)
  have hheld : heldIds s.thr = [] := heldIds_eq_nil_of_done s.thr hdone
  rw [hheld, hslot] at hperm
  have hperm2 : (s.freed ++ [w]).Perm (List.range s.next) := hperm
  refine ⟨w, hslot, ?_, ?_, ?_⟩
  · intro th hth
    obtain ⟨r, hr⟩ := hdone th hth
    have hsr : s.slot = some r := hret r (hr ▸ hth)
    rw [hslot] at hsr
    cases hsr
    exact hr
  · have hnodup : (s.freed ++ [w]).Nodup :=
      hperm2.nodup_iff.2 (List.nodup_range s.next)
    intro hmem
    obtain ⟨-, -, hdisj⟩ := List.nodup_append.1 hnodup
    exact hdisj hmem (List.mem_singleton_self w)
  · show (s.freed ++ s.slot.toList).Perm (List.range s.next)
    rw [hslot]
    exact hperm2

/-- Witness for C1: on the concrete two-thread interleaving
alloc-alloc-casWin-casLose-read, one winner (id 0) is published, both
threads returned it, it is not freed by the threads, and the destructor
free completes every allocation's single free. -/
theorem lockFreeSequence_race_single_winner_witness :
    ∃ w, raceFinalEx.slot = some w
      ∧ (∀ th ∈ raceFinalEx.thr, th = TThread.done w)
      ∧ w ∉ raceFinalEx.freed
      ∧ (destructorFreed raceFinalEx).Perm (List.range raceFinalEx.next) := by
  have h1 : RaceStep (initRace 2)
      ⟨none, 1, [], [TThread.holding 0, TThread.start]⟩ :=
    RaceStep.alloc 0 [] [] [TThread.start]
  have h2 : RaceStep ⟨none, 1, [], [TThread.holding 0, TThread.start]⟩
      ⟨none, 2, [], [TThread.holding 0, TThread.holding 1]⟩ :=
    RaceStep.alloc 1 [] [TThread.holding 0] []
  have h3 : RaceStep ⟨none, 2, [], [TThread.holding 0, TThread.holding 1]⟩
      ⟨some 0, 2, [], [TThread.done 0, TThread.holding 1]⟩ :=
    RaceStep.casWin 0 2 [] [] [TThread.holding 1]
  have h4 : RaceStep ⟨some 0, 2, [], [TThread.done 0, TThread.holding 1]⟩
      ⟨some 0, 2, [1], [TThread.done 0, TThread.start]⟩ :=
    RaceStep.casLose 1 0 2 [] [TThread.done 0] []
  have h5 : RaceStep ⟨some 0, 2, [1], [TThread.done 0, TThread.start]⟩
      raceFinalEx :=
    RaceStep.read 0 2 [1] [TThread.done 0] []
  have hreach : RaceReach (initRace 2) raceFinalEx :=
    Relation.ReflTransGen.head h1 (Relation.ReflTransGen.head h2
      (Relation.ReflTransGen.head h3 (Relation.ReflTransGen.head h4
        (Relation.ReflTransGen.head h5 Relation.ReflTransGen.refl))))
  refine lockFreeSequence_race_single_winner 2 raceFinalEx (by decide) hreach ?_
  intro th hth
  have hth2 : th = TThread.done 0 ∨ th = TThread.done 0 := by
    simpa [raceFinalEx] using hth
  rcases hth2 with h | h <;> exact ⟨0, h⟩

end NNeh
